import Mathlib

/-!
# Verification of `recipe_arbiter.py`

A shallow embedding of the fingerprinting + diff + sync-orchestration core of
`recipe_arbiter.py` (arbitration of conda package recipes between the
ContinuumIO and AnacondaRecipes GitHub organizations), together with theorems
settling the specification claims about it.

Modelling conventions:
* bytes are `Nat` values `< 256`; byte strings are `List Nat`;
* Python dicts are association lists (`List (String × α)`) updated by
  `dictInsert`, which, like Python dict assignment, silently overwrites an
  existing key and otherwise appends;
* filesystem and network effects are passed in explicitly (file listings,
  pages of API responses, oracles for `os.path.isdir` and `git merge`
  success), and Python exceptions are `Except.error`.
-/

/-! ## Python string helpers

`repo_name.split('-recipe', 1)[0]` and `basename.rsplit('-recipe', 1)[0]`
from the source are modelled on `List Char`. -/

/-- Everything of `l` strictly before the first occurrence of the pattern
`pat`; all of `l` when `pat` does not occur.  Models `l.split(pat, 1)[0]`. -/
def splitBefore (pat : List Char) : List Char → List Char
  | [] => []
  | c :: rest => if pat.isPrefixOf (c :: rest) then [] else c :: splitBefore pat rest

/-- Python `s.split(pat, 1)[0]`. -/
def pySplitFirst (s pat : String) : String := ⟨splitBefore pat.data s.data⟩

/-- The position of the last occurrence of `pat` in `l`, if any. -/
def lastMatchPos (pat l : List Char) : Option Nat :=
  ((List.range (l.length + 1)).filter (fun i => pat.isPrefixOf (l.drop i))).getLast?

/-- Python `s.rsplit(pat, 1)[0]`: everything before the last occurrence of
`pat`, or all of `s` when `pat` does not occur. -/
def pyRSplitFirst (s pat : String) : String :=
  match lastMatchPos pat.data s.data with
  | none => s
  | some i => ⟨s.data.take i⟩

/-- Python `s.endswith(pat)`. -/
def endsWithStr (s pat : String) : Bool := pat.data.isSuffixOf s.data

/-- Executable lexicographic comparison of character lists (by code point),
the order Python's `sorted` uses on strings. -/
def charListLe : List Char → List Char → Bool
  | [], _ => true
  | _ :: _, [] => false
  | c :: cs, d :: ds => if c = d then charListLe cs ds else decide (c < d)

/-- Executable lexicographic `≤` on strings. -/
def strLe (a b : String) : Bool := charListLe a.data b.data

/-- `strLe` as a relation, for sorting. -/
def strLeRel (a b : String) : Prop := strLe a b = true

instance : DecidableRel strLeRel := fun a b => instDecidableEqBool (strLe a b) true

lemma charListLe_iff_not_lex : ∀ l1 l2 : List Char,
    charListLe l1 l2 = true ↔ ¬ List.Lex (· < ·) l2 l1
  | [], l2 => by simp [charListLe]
  | c :: cs, [] => by
    simp only [charListLe, Bool.false_eq_true, false_iff, not_not]
    exact List.Lex.nil
  | c :: cs, d :: ds => by
    by_cases hcd : c = d
    · subst hcd
      simp only [charListLe, if_pos rfl, if_true, charListLe_iff_not_lex cs ds]
      rw [List.Lex.cons_iff]
    · simp only [charListLe, if_neg hcd, decide_eq_true_eq]
      constructor
      · intro hlt hlex
        cases hlex with
        | cons h => exact hcd rfl
        | rel h => exact absurd hlt (asymm h)
      · intro hnlex
        rcases lt_trichotomy c d with h | h | h
        · exact h
        · exact absurd h hcd
        · exact absurd (List.Lex.rel h) hnlex

/-- `strLe` agrees with the lexicographic linear order on `String`. -/
lemma strLe_iff {a b : String} : strLe a b = true ↔ a ≤ b := by
  rw [String.le_iff_toList_le, ← not_lt]
  exact charListLe_iff_not_lex a.data b.data

lemma strLeRel_iff {a b : String} : strLeRel a b ↔ a ≤ b := strLe_iff

instance : IsTotal String strLeRel :=
  ⟨fun a b => by rw [strLeRel_iff, strLeRel_iff]; exact le_total a b⟩

instance : IsTrans String strLeRel :=
  ⟨fun a b c hab hbc => by
    rw [strLeRel_iff] at hab hbc ⊢; exact le_trans hab hbc⟩

/-! ## `base64.b64encode`

The source stores each recipe's signature as
`base64.b64encode(recipe_contents)`.  We embed standard base64 (RFC 4648)
over byte lists, and prove it injective on valid byte lists so that
signature equality is byte equality. -/

/-- The standard base64 alphabet. -/
def b64chars : List Char :=
  "ABCDEFGHIJKLMNOPQRSTUVWXYZabcdefghijklmnopqrstuvwxyz0123456789+/".data

/-- The base64 character of a sextet. -/
def sextetChar (n : Nat) : Char := b64chars.getD n 'A'

/-- `base64.b64encode` on a list of bytes, producing the character list of
the encoded form (with `=` padding). -/
def b64encode : List Nat → List Char
  | [] => []
  | [a] => [sextetChar (a / 4), sextetChar (a % 4 * 16), '=', '=']
  | [a, b] => [sextetChar (a / 4), sextetChar (a % 4 * 16 + b / 16), sextetChar (b % 16 * 4), '=']
  | a :: b :: c :: rest =>
    sextetChar (a / 4) :: sextetChar (a % 4 * 16 + b / 16) ::
      sextetChar (b % 16 * 4 + c / 64) :: sextetChar (c % 64) :: b64encode rest

/-- Base64 decoding, used only as a left inverse witnessing injectivity of
`b64encode`. -/
def b64decodeBytes : List Char → List Nat
  | x :: y :: z :: w :: rest =>
    let s1 := b64chars.indexOf x
    let s2 := b64chars.indexOf y
    if z = '=' then [s1 * 4 + s2 / 16]
    else
      let s3 := b64chars.indexOf z
      if w = '=' then [s1 * 4 + s2 / 16, s2 % 16 * 16 + s3 / 4]
      else (s1 * 4 + s2 / 16) :: (s2 % 16 * 16 + s3 / 4) ::
        (s3 % 4 * 64 + b64chars.indexOf w) :: b64decodeBytes rest
  | _ => []

lemma indexOf_sextetChar_fin : ∀ n : Fin 64, b64chars.indexOf (sextetChar n.val) = n.val := by
  decide

lemma sextetChar_ne_pad_fin : ∀ n : Fin 64, sextetChar n.val ≠ '=' := by
  decide

lemma indexOf_sextetChar {n : Nat} (h : n < 64) : b64chars.indexOf (sextetChar n) = n :=
  indexOf_sextetChar_fin ⟨n, h⟩

lemma sextetChar_ne_pad {n : Nat} (h : n < 64) : sextetChar n ≠ '=' :=
  sextetChar_ne_pad_fin ⟨n, h⟩

/-- Decoding is a left inverse of encoding on genuine byte lists. -/
theorem b64decode_b64encode : ∀ l : List Nat, (∀ b ∈ l, b < 256) →
    b64decodeBytes (b64encode l) = l
  | [], _ => by simp [b64encode, b64decodeBytes]
  | [a], h => by
    have ha : a < 256 := h a (by simp)
    have h1 : a / 4 < 64 := by omega
    have h2 : a % 4 * 16 < 64 := by omega
    simp only [b64encode, b64decodeBytes, if_pos rfl, if_true,
      indexOf_sextetChar h1, indexOf_sextetChar h2, List.cons.injEq, and_true]
    omega
  | [a, b], h => by
    have ha : a < 256 := h a (by simp)
    have hb : b < 256 := h b (by simp)
    have h1 : a / 4 < 64 := by omega
    have h2 : a % 4 * 16 + b / 16 < 64 := by omega
    have h3 : b % 16 * 4 < 64 := by omega
    simp only [b64encode, b64decodeBytes, if_neg (sextetChar_ne_pad h3), if_pos rfl, if_true,
      indexOf_sextetChar h1, indexOf_sextetChar h2, indexOf_sextetChar h3,
      List.cons.injEq, and_true]
    omega
  | a :: b :: c :: rest, h => by
    have ha : a < 256 := h a (by simp)
    have hb : b < 256 := h b (by simp)
    have hc : c < 256 := h c (by simp)
    have h1 : a / 4 < 64 := by omega
    have h2 : a % 4 * 16 + b / 16 < 64 := by omega
    have h3 : b % 16 * 4 + c / 64 < 64 := by omega
    have h4 : c % 64 < 64 := by omega
    have ih := b64decode_b64encode rest (fun x hx => h x (by simp [hx]))
    simp only [b64encode, b64decodeBytes, if_neg (sextetChar_ne_pad h3),
      if_neg (sextetChar_ne_pad h4), indexOf_sextetChar h1, indexOf_sextetChar h2,
      indexOf_sextetChar h3, indexOf_sextetChar h4, ih, List.cons.injEq, and_true]
    omega

/-- `b64encode` is injective on byte lists. -/
theorem b64encode_injOn {l1 l2 : List Nat} (h1 : ∀ b ∈ l1, b < 256) (h2 : ∀ b ∈ l2, b < 256)
    (h : b64encode l1 = b64encode l2) : l1 = l2 := by
  have := congrArg b64decodeBytes h
  rwa [b64decode_b64encode l1 h1, b64decode_b64encode l2 h2] at this

/-! ## Fingerprint extraction (`get_recipe_contents`)

A recipe directory is identified in the source by a `meta.yaml` file.  The
walk over the filesystem is passed in as data: each recipe root is its path
(components from the repository root) together with its files, each file a
name and its raw bytes. -/

/-- One recipe root found by the `os.walk` scan of `get_recipe_contents`:
its path components and the files beneath it. -/
structure RecipeDir where
  path : List String
  files : List (String × List Nat)
deriving DecidableEq

/-- The canonical recipe name of a recipe root, from `get_recipe_contents`:
if the directory is literally named `recipe` the name is the parent's
basename with the `-recipe` suffix stripped (`rsplit('-recipe', 1)[0]`),
otherwise it is the root's own basename. -/
def recipeNameOf (path : List String) : String :=
  let base := path.getLastD ""
  if base = "recipe" then pyRSplitFirst ((path.dropLast).getLastD "") "-recipe"
  else base

/-- `sorted(files)` of one directory: the files in lexicographic filename
order. -/
def fileLeRel (f g : String × List Nat) : Prop := strLe f.1 g.1 = true

instance : DecidableRel fileLeRel := fun f g => instDecidableEqBool (strLe f.1 g.1) true

def sortFiles (files : List (String × List Nat)) : List (String × List Nat) :=
  files.insertionSort fileLeRel

/-- The concatenation `recipe_contents += file_contents` over the files. -/
def concatFiles : List (String × List Nat) → List Nat
  | [] => []
  | f :: rest => f.2 ++ concatFiles rest

/-- All bytes of a recipe root, files taken in sorted filename order. -/
def recipe_contents (files : List (String × List Nat)) : List Nat :=
  concatFiles (sortFiles files)

/-- The signature stored per recipe:
`base64.b64encode(recipe_contents)`. -/
def recipe_signature (files : List (String × List Nat)) : String :=
  String.mk (b64encode (recipe_contents files))

/-- Every byte of every file is a genuine byte. -/
def ValidFiles (files : List (String × List Nat)) : Prop :=
  ∀ f ∈ files, ∀ b ∈ f.2, b < 256

instance (files : List (String × List Nat)) : Decidable (ValidFiles files) := by
  unfold ValidFiles; infer_instance

/-- Python dict assignment `d[k] = v`: overwrite the value when the key is
present, append otherwise. -/
def dictInsert (d : List (String × α)) (k : String) (v : α) : List (String × α) :=
  if d.any (fun p => p.1 == k) then d.map (fun p => if p.1 == k then (k, v) else p)
  else d ++ [(k, v)]

/-- Python `d.update(entries)`. -/
def dictUpdate (d : List (String × α)) (entries : List (String × α)) : List (String × α) :=
  entries.foldl (fun acc p => dictInsert acc p.1 p.2) d

/-- `get_recipe_contents`: for each recipe root (in the order the
`recipe_dirs` set is iterated), resolve its canonical name and store the
signature of its bytes in the result dict.  A name collision silently
overwrites the earlier entry, exactly as Python dict assignment does. -/
def get_recipe_contents (dirs : List RecipeDir) : List (String × String) :=
  dirs.foldl (fun acc d => dictInsert acc (recipeNameOf d.path) (recipe_signature d.files)) []

/-! ## Diff engine (`calc_recipe_diff`)

`calc_recipe_diff(public_recipes, dist_public_recipes)` builds one row per
name in the union of the two key sets, sorted lexicographically, with the
`AnacondaRecipes` / `ContinuumIO` presence columns and the `ContentsEqual`
column (`NaN`, modelled as `none`, when the recipe is missing on either
side). -/

/-- One row of the diff dataframe. -/
structure DiffRow where
  recipe : String
  inAnacondaRecipes : Bool
  inContinuum : Bool
  contentsEqual : Option Bool
deriving DecidableEq

/-- The row `calc_recipe_diff` produces for recipe `r`. -/
def diffRowFor (pub dist : List (String × String)) (r : String) : DiffRow :=
  { recipe := r
    inAnacondaRecipes := (pub.lookup r).isSome
    inContinuum := (dist.lookup r).isSome
    contentsEqual :=
      match pub.lookup r, dist.lookup r with
      | some a, some b => some (a == b)
      | _, _ => none }

/-- The lexicographically sorted union of the two key sets:
`sorted(dist_repo_names.union(public_repo_names))`. -/
def diffNames (pub dist : List (String × String)) : List String :=
  ((pub.map Prod.fst ++ dist.map Prod.fst).dedup).insertionSort strLeRel

/-- `calc_recipe_diff`: one `DiffRow` per name in the union of the key
sets, in lexicographic order. -/
def calc_recipe_diff (pub dist : List (String × String)) : List DiffRow :=
  (diffNames pub dist).map (diffRowFor pub dist)

/-- The key set of a recipe mapping. -/
def recipeKeys (d : List (String × String)) : Finset String :=
  (d.map Prod.fst).toFinset

/-- The row of a diff table carrying recipe `r`, if any. -/
def rowFor (table : List DiffRow) (r : String) : Option DiffRow :=
  table.find? (fun row => row.recipe == r)

/-- Candidate selection shared by both sync directions:
`diff_df[~diff_df.fillna(True)['ContentsEqual']]`, i.e. keep the rows whose
`ContentsEqual` cell, with `NaN` filled by `True`, is `False`. -/
def recipes_to_update (table : List DiffRow) : List String :=
  (table.filter (fun row => !(row.contentsEqual.getD true))).map DiffRow.recipe

/-! ## Corpus loader (`get_anaconda_repo_contents`)

The GitHub listing of the AnacondaRecipes organization is passed in as
data: the page count discovered from the `Link: ...; rel="last"` header of
the initial `HEAD` request, and one payload per page.  A payload carries
the repository names, an optional API error message (the `{"message": ...}`
shape that `raise_on_err` turns into an exception), and a self-reported
truncation flag such as the GitHub tree API's `"truncated"` field.  The
source never inspects such a flag (its own TODO list says
`Handle the "truncated" case`). -/

/-- One page of the paginated repository listing. -/
structure RepoPage where
  repos : List String
  truncated : Bool
  message : Option String
deriving DecidableEq

/-- Loader state: recipe names already seen (`seen`), repositories cloned
and processed so far in order, and the accumulated
`recipe_content_dict`. -/
structure ReposState where
  seen : List String
  processed : List String
  dict : List (String × String)
deriving DecidableEq

/-- Processing of one repository name inside the page loop:
`assert repo_name.endswith('-recipe')` (an `AssertionError` when it
fails), strip the suffix with `split('-recipe', 1)[0]`, skip the repo
when the recipe name was already seen, otherwise clone it and merge
`get_recipe_contents(<repo>/recipe)` — supplied as the oracle
`contents` — into the dict. -/
def processRepo (contents : String → List (String × String)) (st : ReposState)
    (repoName : String) : Except String ReposState :=
  if endsWithStr repoName "-recipe" = false then
    Except.error ("AssertionError: " ++ repoName)
  else if st.seen.contains (pySplitFirst repoName "-recipe") then Except.ok st
  else Except.ok
    { seen := pySplitFirst repoName "-recipe" :: st.seen
      processed := st.processed ++ [repoName]
      dict := dictUpdate st.dict (contents repoName) }

/-- Processing of one page: `raise_on_err` on an error payload, then the
repository loop.  The `truncated` flag is not consulted. -/
def processPage (contents : String → List (String × String)) (st : ReposState)
    (page : RepoPage) : Except String ReposState :=
  match page.message with
  | some m => Except.error ("GitHub API returned the following error message: " ++ m)
  | none => page.repos.foldlM (processRepo contents) st

/-- `get_anaconda_repo_contents`: iterate `page_ct in range(1, npages+1)`
over the listing pages, where `npages` was discovered from the pagination
metadata of the initial `HEAD` response. -/
def get_anaconda_repo_contents (npages : Nat) (pages : Nat → RepoPage)
    (contents : String → List (String × String)) : Except String ReposState :=
  (List.range' 1 npages).foldlM (fun st i => processPage contents st (pages i)) ⟨[], [], []⟩

/-- All repository names of the listing, in page order. -/
def allRepos (npages : Nat) (pages : Nat → RepoPage) : List String :=
  (List.range' 1 npages).flatMap (fun i => (pages i).repos)

/-- Reference selection: the first occurrence of each recipe name
(relative to an initial `seen` set), later duplicates dropped. -/
def firstOccFrom (seen : List String) : List String → List String
  | [] => []
  | r :: rest =>
    if seen.contains (pySplitFirst r "-recipe") then firstOccFrom seen rest
    else r :: firstOccFrom (pySplitFirst r "-recipe" :: seen) rest

/-- The `seen` set after scanning a repository list. -/
def seenAfter (seen : List String) : List String → List String
  | [] => seen
  | r :: rest =>
    if seen.contains (pySplitFirst r "-recipe") then seenAfter seen rest
    else seenAfter (pySplitFirst r "-recipe" :: seen) rest

/-! ## Sync orchestrator (`complete_action`)

Branch names come from
`datetime.datetime.now().strftime('%Y%m%d%H%M%S')`, so a timestamp is a
six-field record; `strftime` zero-pads every field.  The per-recipe git
work is modelled as an event trace; a failing `git merge` raises
`GitCommandError`, which nothing in `complete_action` catches, so the
loop stops at the first merge failure and the error escapes. -/

/-- A wall-clock timestamp at second resolution. -/
structure DateTime6 where
  year : Nat
  month : Nat
  day : Nat
  hour : Nat
  minute : Nat
  second : Nat
deriving DecidableEq

/-- Field bounds under which each `strftime` field fits its printed
width. -/
def DateTime6.Valid (t : DateTime6) : Prop :=
  t.year < 10000 ∧ t.month < 100 ∧ t.day < 100 ∧ t.hour < 100 ∧
    t.minute < 100 ∧ t.second < 100

instance (t : DateTime6) : Decidable t.Valid := by unfold DateTime6.Valid; infer_instance

/-- Two zero-padded decimal digits. -/
def pad2 (n : Nat) : List Char := [Nat.digitChar (n / 10 % 10), Nat.digitChar (n % 10)]

/-- Four zero-padded decimal digits. -/
def pad4 (n : Nat) : List Char :=
  [Nat.digitChar (n / 1000 % 10), Nat.digitChar (n / 100 % 10),
    Nat.digitChar (n / 10 % 10), Nat.digitChar (n % 10)]

/-- `strftime('%Y%m%d%H%M%S')`. -/
def strftimeYmdHMS (t : DateTime6) : String :=
  String.mk (pad4 t.year ++ pad2 t.month ++ pad2 t.day ++ pad2 t.hour ++
    pad2 t.minute ++ pad2 t.second)

/-- `'{action}_{today}'`: the branch name used by both sync directions. -/
def branch_name (action : String) (t : DateTime6) : String :=
  action ++ "_" ++ strftimeYmdHMS t

/-- Observable per-recipe events of a synchronization run. -/
inductive SyncEvent where
  | branched (repo bname : String)
  | skippedMissing (recipe : String)
  | committed (recipe : String)
  | merged (recipe : String)
  | prOpened (repo bname : String)
deriving DecidableEq

/-- The `internalize` per-recipe loop over the candidate recipes (lines
344–358): when `os.path.isdir` fails for the internal destination the
recipe is logged and skipped with `continue`; otherwise the subtree is
replaced, committed, and `master` merged — an uncaught merge failure ends
the loop with the exception. -/
def internalize_sync_loop (dirExists mergeFails : String → Bool) :
    List String → List SyncEvent × Option String
  | [] => ([], none)
  | r :: rest =>
    if dirExists r then
      if mergeFails r then
        ([SyncEvent.committed r], some ("GitCommandError: git merge master failed on " ++ r))
      else
        let c := internalize_sync_loop dirExists mergeFails rest
        (SyncEvent.committed r :: SyncEvent.merged r :: c.1, c.2)
    else
      let c := internalize_sync_loop dirExists mergeFails rest
      (SyncEvent.skippedMissing r :: c.1, c.2)

/-- The `externalize` per-recipe loop (lines 310–336): per recipe a fresh
branch off `master`, subtree replacement, commit, merge of `master`
(uncaught on failure), then push and PR unless in debug mode.  The clock
is sampled once per iteration. -/
def externalize_sync_loop (mergeFails : String → Bool) (clock : Nat → DateTime6)
    (debug : Bool) (i : Nat) : List String → List SyncEvent × Option String
  | [] => ([], none)
  | r :: rest =>
    let bn := branch_name "externalize" (clock i)
    if mergeFails r then
      ([SyncEvent.branched (r ++ "-recipe") bn, SyncEvent.committed r],
        some ("GitCommandError: git merge master failed on " ++ r))
    else
      let c := externalize_sync_loop mergeFails clock debug (i + 1) rest
      ((SyncEvent.branched (r ++ "-recipe") bn :: SyncEvent.committed r ::
          SyncEvent.merged r ::
          (if debug then [] else [SyncEvent.prOpened (r ++ "-recipe") bn])) ++ c.1,
        c.2)

/-- The `internalize` action: one branch on the `anaconda` repository for
the whole batch, then the per-recipe loop, then (unless debug, and only
when no exception escaped the loop) push and PR. -/
def internalize_action (dirExists mergeFails : String → Bool) (t : DateTime6)
    (debug : Bool) (cands : List String) : List SyncEvent × Option String :=
  let bn := branch_name "internalize" t
  let c := internalize_sync_loop dirExists mergeFails cands
  match c.2 with
  | some e => (SyncEvent.branched "anaconda" bn :: c.1, some e)
  | none =>
    (SyncEvent.branched "anaconda" bn :: c.1 ++
      (if debug then [] else [SyncEvent.prOpened "anaconda" bn]), none)

/-! ## Helper lemmas -/

lemma not_getD_true {o : Option Bool} : (!(o.getD true)) = true ↔ o = some false := by
  cases o with
  | none => simp
  | some b => cases b <;> simp

lemma lookup_some_mem_keys {α : Type} :
    ∀ {d : List (String × α)} {r : String} {v : α},
      d.lookup r = some v → r ∈ d.map Prod.fst := by
  intro d
  induction d with
  | nil => intro r v h; simp [List.lookup] at h
  | cons p rest ih =>
    intro r v h
    obtain ⟨a, b⟩ := p
    rw [List.lookup_cons] at h
    rcases hra : r == a with _ | _
    · rw [hra] at h
      exact List.mem_cons_of_mem _ (ih h)
    · have : r = a := by simpa using hra
      simp [this]

lemma mem_keys_lookup_isSome {α : Type} :
    ∀ {d : List (String × α)} {r : String},
      r ∈ d.map Prod.fst → (d.lookup r).isSome = true := by
  intro d
  induction d with
  | nil => intro r h; simp at h
  | cons p rest ih =>
    intro r h
    obtain ⟨a, b⟩ := p
    rw [List.lookup_cons]
    rcases hra : r == a with _ | _
    · rw [List.map_cons, List.mem_cons] at h
      rcases h with he | hm
      · exact absurd he (by simpa using hra)
      · simpa [hra] using ih hm
    · simp

/-- `rowFor` on a table built as a map over distinctly named rows finds the
row of the given name. -/
lemma rowFor_map {f : String → DiffRow} (hf : ∀ s, (f s).recipe = s) :
    ∀ {names : List String} {r : String}, r ∈ names →
      rowFor (names.map f) r = some (f r) := by
  intro names
  induction names with
  | nil => intro r h; simp at h
  | cons a rest ih =>
    intro r h
    rw [List.map_cons, rowFor, List.find?_cons]
    rcases har : ((f a).recipe == r) with _ | _
    · have hne : a ≠ r := by
        intro he; subst he; simp [hf] at har
      rcases List.mem_cons.mp h with he | hm
      · exact absurd he.symm hne
      · exact ih hm
    · have : a = r := by have := har; rw [hf] at this; simpa using this
      subst this
      rfl

lemma mem_diffNames {pub dist : List (String × String)} {r : String} :
    r ∈ diffNames pub dist ↔ r ∈ pub.map Prod.fst ∨ r ∈ dist.map Prod.fst := by
  unfold diffNames
  rw [List.mem_insertionSort, List.mem_dedup, List.mem_append]

lemma rowFor_calc {pub dist : List (String × String)} {r : String}
    (h : r ∈ diffNames pub dist) :
    rowFor (calc_recipe_diff pub dist) r = some (diffRowFor pub dist r) :=
  rowFor_map (fun _ => rfl) h

/-! ## C1 -/

/-- C1 (counterexample): a recipe present only on the AnacondaRecipes side
gets a not-applicable (`NaN`) comparison cell, yet
`diff_df[~diff_df.fillna(True)['ContentsEqual']]` selects nothing: the
`fillna(True)` step promotes the `NaN` to `True`, so the row is not a
candidate even though the recipe is present on the source side of the
`internalize` direction. -/
theorem recipes_to_update_na_counterexample :
    calc_recipe_diff [("numpy", "MQ==")] []
      = [{ recipe := "numpy", inAnacondaRecipes := true, inContinuum := false,
           contentsEqual := none }]
    ∧ recipes_to_update (calc_recipe_diff [("numpy", "MQ==")] []) = [] :=
  ⟨by decide, by decide⟩

/-- C1 (amended): for every diff table and either direction, the candidate
recipes are exactly the rows whose `ContentsEqual` cell is `False`; rows
marked equal and rows with a not-applicable cell (even when the recipe is
present on the source side) are never candidates. -/
theorem recipes_to_update_iff_false_row (table : List DiffRow) (r : String) :
    r ∈ recipes_to_update table
      ↔ ∃ row, row ∈ table ∧ row.recipe = r ∧ row.contentsEqual = some false := by
  simp only [recipes_to_update, List.mem_map, List.mem_filter, not_getD_true]
  constructor
  · rintro ⟨row, ⟨hmem, hfalse⟩, hrec⟩
    exact ⟨row, hmem, hrec, hfalse⟩
  · rintro ⟨row, hmem, hrec, hfalse⟩
    exact ⟨row, ⟨hmem, hfalse⟩, hrec⟩

/-! ## C2 -/

/-- C2: the diff table has exactly `|keys(A) ∪ keys(B)|` rows, every name
from either mapping heads exactly one row, and the rows are sorted
lexicographically by recipe name. -/
theorem calc_recipe_diff_shape (pub dist : List (String × String)) :
    (calc_recipe_diff pub dist).length = (recipeKeys pub ∪ recipeKeys dist).card
  ∧ (∀ n, n ∈ recipeKeys pub ∪ recipeKeys dist →
      (calc_recipe_diff pub dist).countP (fun row => row.recipe == n) = 1)
  ∧ List.Sorted (fun x y : DiffRow => x.recipe ≤ y.recipe) (calc_recipe_diff pub dist) := by
  have hperm := List.perm_insertionSort strLeRel
    ((pub.map Prod.fst ++ dist.map Prod.fst).dedup)
  have hnodup : (diffNames pub dist).Nodup :=
    hperm.nodup_iff.mpr (List.nodup_dedup _)
  refine ⟨?_, ?_, ?_⟩
  · rw [calc_recipe_diff, List.length_map, diffNames, hperm.length_eq]
    rw [recipeKeys, recipeKeys, ← List.toFinset_append, List.card_toFinset]
  · intro n hn
    have hmem : n ∈ diffNames pub dist := by
      rw [mem_diffNames]
      rw [recipeKeys, recipeKeys, Finset.mem_union, List.mem_toFinset, List.mem_toFinset] at hn
      exact hn
    rw [calc_recipe_diff, List.countP_map]
    have : ((fun row : DiffRow => row.recipe == n) ∘ diffRowFor pub dist)
        = fun s => s == n := rfl
    rw [this]
    exact List.count_eq_one_of_mem hnodup hmem
  · have hsorted : List.Sorted strLeRel (diffNames pub dist) :=
      List.sorted_insertionSort strLeRel _
    exact hsorted.map _ (fun a b hab => strLeRel_iff.mp hab)

/-- C2 (witness): the spec's worked example. -/
theorem calc_recipe_diff_shape_witness :
    (calc_recipe_diff [("numpy", "MQ=="), ("scipy", "Mg==")]
        [("numpy", "MQ=="), ("pandas", "Mw==")]).length
      = (recipeKeys [("numpy", "MQ=="), ("scipy", "Mg==")]
          ∪ recipeKeys [("numpy", "MQ=="), ("pandas", "Mw==")]).card
  ∧ (calc_recipe_diff [("numpy", "MQ=="), ("scipy", "Mg==")]
        [("numpy", "MQ=="), ("pandas", "Mw==")]).countP
        (fun row => row.recipe == "scipy") = 1 := by
  have h := calc_recipe_diff_shape [("numpy", "MQ=="), ("scipy", "Mg==")]
    [("numpy", "MQ=="), ("pandas", "Mw==")]
  exact ⟨h.1, h.2.1 "scipy" (by decide)⟩

/-! ## C3 -/

lemma mem_concatFiles {b : Nat} :
    ∀ {l : List (String × List Nat)}, b ∈ concatFiles l ↔ ∃ f ∈ l, b ∈ f.2 := by
  intro l
  induction l with
  | nil => simp [concatFiles]
  | cons f rest ih => simp [concatFiles, ih]

lemma valid_recipe_contents {fs : List (String × List Nat)} (hv : ValidFiles fs) :
    ∀ b ∈ recipe_contents fs, b < 256 := by
  intro b hb
  rw [recipe_contents, mem_concatFiles] at hb
  obtain ⟨f, hf, hbf⟩ := hb
  have hfs : f ∈ fs := (List.mem_insertionSort fileLeRel).mp hf
  exact hv f hfs b hbf

/-- Signature equality is byte-level equality of the concatenated recipe
contents (base64 encoding is injective). -/
lemma signature_beq_iff_contents {fp fd : List (String × List Nat)}
    (hv1 : ValidFiles fp) (hv2 : ValidFiles fd) :
    (recipe_signature fp == recipe_signature fd)
      = decide (recipe_contents fp = recipe_contents fd) := by
  by_cases hc : recipe_contents fp = recipe_contents fd
  · simp [recipe_signature, hc]
  · simp only [decide_eq_false hc]
    rw [beq_eq_false_iff_ne]
    intro hsig
    apply hc
    have hdata : b64encode (recipe_contents fp) = b64encode (recipe_contents fd) :=
      congrArg String.data hsig
    exact b64encode_injOn (valid_recipe_contents hv1) (valid_recipe_contents hv2) hdata

/-- C3: for a recipe present in both corpora whose stored signatures come
from `get_recipe_contents`-style fingerprints (all files read in sorted
order, bytes concatenated, digest `base64.b64encode`), the `ContentsEqual`
cell is `True` exactly when the concatenated bytes agree — so byte-identical
recipe files give `True` and any single differing byte gives `False`. -/
theorem contents_equal_iff_byte_identical (pub dist : List (String × String))
    (r : String) (fp fd : List (String × List Nat))
    (hv1 : ValidFiles fp) (hv2 : ValidFiles fd)
    (h1 : pub.lookup r = some (recipe_signature fp))
    (h2 : dist.lookup r = some (recipe_signature fd)) :
    rowFor (calc_recipe_diff pub dist) r
      = some { recipe := r, inAnacondaRecipes := true, inContinuum := true,
               contentsEqual := some (decide (recipe_contents fp = recipe_contents fd)) } := by
  have hmem : r ∈ diffNames pub dist :=
    mem_diffNames.mpr (Or.inl (lookup_some_mem_keys h1))
  rw [rowFor_calc hmem, diffRowFor, h1, h2]
  simp only [Option.isSome_some]
  rw [signature_beq_iff_contents hv1 hv2]

/-- C3 (witness): two one-file corpora differing in a single byte give
`ContentsEqual = False`. -/
theorem contents_equal_iff_byte_identical_witness :
    rowFor (calc_recipe_diff [("numpy", recipe_signature [("meta.yaml", [97])])]
        [("numpy", recipe_signature [("meta.yaml", [98])])]) "numpy"
      = some { recipe := "numpy", inAnacondaRecipes := true, inContinuum := true,
               contentsEqual := some false } :=
  contents_equal_iff_byte_identical _ _ "numpy" [("meta.yaml", [97])] [("meta.yaml", [98])]
    (by decide) (by decide) rfl rfl

/-! ## C4 -/

/-- C4: a recipe present in only one corpus gets the distinguished
not-applicable cell (`NaN`, modelled `none`) — never `True`, never
`False` — and the diff computes it without raising (the membership test
guards the dict accesses, so the embedding is a total function). -/
theorem contents_equal_na_when_one_sided (pub dist : List (String × String))
    (r : String) (h : (pub.lookup r).isSome ≠ (dist.lookup r).isSome) :
    rowFor (calc_recipe_diff pub dist) r
      = some { recipe := r, inAnacondaRecipes := (pub.lookup r).isSome,
               inContinuum := (dist.lookup r).isSome, contentsEqual := none } := by
  have hmem : r ∈ diffNames pub dist := by
    rw [mem_diffNames]
    cases hp : pub.lookup r with
    | none =>
      cases hd : dist.lookup r with
      | none => rw [hp, hd] at h; simp at h
      | some w => exact Or.inr (lookup_some_mem_keys hd)
    | some v => exact Or.inl (lookup_some_mem_keys hp)
  rw [rowFor_calc hmem]
  cases hp : pub.lookup r with
  | none =>
    cases hd : dist.lookup r with
    | none => rw [hp, hd] at h; simp at h
    | some w => simp [diffRowFor, hp, hd]
  | some v =>
    cases hd : dist.lookup r with
    | none => simp [diffRowFor, hp, hd]
    | some w => rw [hp, hd] at h; simp at h

/-- C4 (witness): a recipe present only on the AnacondaRecipes side. -/
theorem contents_equal_na_when_one_sided_witness :
    rowFor (calc_recipe_diff [("scipy", "MQ==")] []) "scipy"
      = some { recipe := "scipy", inAnacondaRecipes := true,
               inContinuum := false, contentsEqual := none } :=
  contents_equal_na_when_one_sided [("scipy", "MQ==")] [] "scipy" (by decide)

/-! ## C5 -/

/-- C5: in the `internalize` direction, a candidate recipe whose internal
destination directory does not exist is logged as skipped and dropped with
`continue`: it contributes exactly one skip record, no commit or merge,
raises nothing, and the loop proceeds with the remaining recipes
unchanged. -/
theorem internalize_skips_missing (dirExists mergeFails : String → Bool)
    (r : String) (rest : List String) (h : dirExists r = false) :
    internalize_sync_loop dirExists mergeFails (r :: rest)
      = (SyncEvent.skippedMissing r :: (internalize_sync_loop dirExists mergeFails rest).1,
         (internalize_sync_loop dirExists mergeFails rest).2) := by
  simp [internalize_sync_loop, h]

/-- C5 (witness). -/
theorem internalize_skips_missing_witness :
    internalize_sync_loop (fun _ => false) (fun _ => false) ["numpy"]
      = ([SyncEvent.skippedMissing "numpy"], none) :=
  internalize_skips_missing (fun _ => false) (fun _ => false) "numpy" [] rfl

/-! ## C6 -/

/-- C6 (counterexample): with two candidate recipes and a merge failure on
the first, the run stops at the failing recipe — the second candidate is
never processed and the `GitCommandError` escapes, instead of being
recorded for the failing recipe only while the batch continues. -/
theorem merge_failure_aborts_counterexample :
    internalize_sync_loop (fun _ => true) (fun s => s == "matplotlib")
        ["matplotlib", "numpy"]
      = ([SyncEvent.committed "matplotlib"],
         some "GitCommandError: git merge master failed on matplotlib") := by
  decide

/-- C6 (amended): a failing per-recipe merge step raises an uncaught
exception that aborts the rest of the batch, in both directions: the
failing recipe's merge error escapes to the caller and no later candidate
is processed (only the `internalize` missing-directory case is isolated
per recipe). -/
theorem merge_failure_aborts_batch (dirExists mergeFails : String → Bool)
    (clock : Nat → DateTime6) (debug : Bool) (i : Nat)
    (r : String) (rest : List String)
    (hd : dirExists r = true) (hm : mergeFails r = true) :
    internalize_sync_loop dirExists mergeFails (r :: rest)
      = ([SyncEvent.committed r],
         some ("GitCommandError: git merge master failed on " ++ r))
  ∧ externalize_sync_loop mergeFails clock debug i (r :: rest)
      = ([SyncEvent.branched (r ++ "-recipe") (branch_name "externalize" (clock i)),
          SyncEvent.committed r],
         some ("GitCommandError: git merge master failed on " ++ r)) := by
  constructor
  · simp [internalize_sync_loop, hd, hm]
  · simp [externalize_sync_loop, hm]

/-- C6 (witness for the amended claim). -/
theorem merge_failure_aborts_batch_witness :
    internalize_sync_loop (fun _ => true) (fun _ => true) ["numpy", "scipy"]
      = ([SyncEvent.committed "numpy"],
         some "GitCommandError: git merge master failed on numpy")
  ∧ externalize_sync_loop (fun _ => true) (fun _ => ⟨2017, 5, 1, 0, 0, 0⟩) false 0
        ["numpy", "scipy"]
      = ([SyncEvent.branched "numpy-recipe"
            (branch_name "externalize" ⟨2017, 5, 1, 0, 0, 0⟩),
          SyncEvent.committed "numpy"],
         some "GitCommandError: git merge master failed on numpy") :=
  merge_failure_aborts_batch (fun _ => true) (fun _ => true)
    (fun _ => ⟨2017, 5, 1, 0, 0, 0⟩) false 0 "numpy" ["scipy"] rfl rfl

/-! ## C9 -/

lemma digitChar_injOn (a b : Nat) (ha : a < 10) (hb : b < 10)
    (h : Nat.digitChar a = Nat.digitChar b) : a = b := by
  interval_cases a <;> interval_cases b <;> revert h <;> decide

lemma strftime_inj {t1 t2 : DateTime6} (h1 : t1.Valid) (h2 : t2.Valid)
    (h : strftimeYmdHMS t1 = strftimeYmdHMS t2) : t1 = t2 := by
  obtain ⟨y1, mo1, d1, hh1, mi1, s1⟩ := t1
  obtain ⟨y2, mo2, d2, hh2, mi2, s2⟩ := t2
  replace h1 : y1 < 10000 ∧ mo1 < 100 ∧ d1 < 100 ∧ hh1 < 100 ∧ mi1 < 100 ∧ s1 < 100 := h1
  replace h2 : y2 < 10000 ∧ mo2 < 100 ∧ d2 < 100 ∧ hh2 < 100 ∧ mi2 < 100 ∧ s2 < 100 := h2
  obtain ⟨hy1, hmo1, hd1, hhh1, hmi1, hs1⟩ := h1
  obtain ⟨hy2, hmo2, hd2, hhh2, hmi2, hs2⟩ := h2
  have hl : pad4 y1 ++ pad2 mo1 ++ pad2 d1 ++ pad2 hh1 ++ pad2 mi1 ++ pad2 s1
      = pad4 y2 ++ pad2 mo2 ++ pad2 d2 ++ pad2 hh2 ++ pad2 mi2 ++ pad2 s2 :=
    congrArg String.data h
  simp only [pad4, pad2, List.cons_append, List.nil_append,
    List.cons.injEq, and_true] at hl
  obtain ⟨e1, e2, e3, e4, e5, e6, e7, e8, e9, e10, e11, e12, e13, e14⟩ := hl
  have tenpos : (0 : Nat) < 10 := by norm_num
  have q1 := digitChar_injOn _ _ (Nat.mod_lt _ tenpos) (Nat.mod_lt _ tenpos) e1
  have q2 := digitChar_injOn _ _ (Nat.mod_lt _ tenpos) (Nat.mod_lt _ tenpos) e2
  have q3 := digitChar_injOn _ _ (Nat.mod_lt _ tenpos) (Nat.mod_lt _ tenpos) e3
  have q4 := digitChar_injOn _ _ (Nat.mod_lt _ tenpos) (Nat.mod_lt _ tenpos) e4
  have q5 := digitChar_injOn _ _ (Nat.mod_lt _ tenpos) (Nat.mod_lt _ tenpos) e5
  have q6 := digitChar_injOn _ _ (Nat.mod_lt _ tenpos) (Nat.mod_lt _ tenpos) e6
  have q7 := digitChar_injOn _ _ (Nat.mod_lt _ tenpos) (Nat.mod_lt _ tenpos) e7
  have q8 := digitChar_injOn _ _ (Nat.mod_lt _ tenpos) (Nat.mod_lt _ tenpos) e8
  have q9 := digitChar_injOn _ _ (Nat.mod_lt _ tenpos) (Nat.mod_lt _ tenpos) e9
  have q10 := digitChar_injOn _ _ (Nat.mod_lt _ tenpos) (Nat.mod_lt _ tenpos) e10
  have q11 := digitChar_injOn _ _ (Nat.mod_lt _ tenpos) (Nat.mod_lt _ tenpos) e11
  have q12 := digitChar_injOn _ _ (Nat.mod_lt _ tenpos) (Nat.mod_lt _ tenpos) e12
  have q13 := digitChar_injOn _ _ (Nat.mod_lt _ tenpos) (Nat.mod_lt _ tenpos) e13
  have q14 := digitChar_injOn _ _ (Nat.mod_lt _ tenpos) (Nat.mod_lt _ tenpos) e14
  simp only [DateTime6.mk.injEq]
  omega

/-- C9: a branch name is the action name plus a second-resolution
`strftime` stamp; for (width-)valid timestamps, two branch names of the
same action coincide exactly when the two invocations fall in the same
second, and the two actions' branch names never collide. -/
theorem branch_names_collide_only_same_second (t1 t2 : DateTime6)
    (h1 : t1.Valid) (h2 : t2.Valid) :
    (∀ action : String, branch_name action t1 = branch_name action t2 ↔ t1 = t2)
  ∧ branch_name "externalize" t1 ≠ branch_name "internalize" t2 := by
  constructor
  · intro action
    constructor
    · intro h
      apply strftime_inj h1 h2
      apply String.ext
      have hd := congrArg String.data h
      simp only [branch_name, String.data_append] at hd
      exact List.append_cancel_left hd
    · intro he
      rw [he]
  · intro h
    have he : (branch_name "externalize" t1).data.head? = some 'e' := rfl
    have hi : (branch_name "internalize" t2).data.head? = some 'i' := rfl
    rw [h, hi] at he
    exact absurd (Option.some.inj he) (by decide)

/-- C9 (witness): same action, timestamps one second apart. -/
theorem branch_names_collide_only_same_second_witness :
    (branch_name "externalize" ⟨2017, 5, 1, 12, 0, 0⟩
        = branch_name "externalize" ⟨2017, 5, 1, 12, 0, 1⟩)
      ↔ (⟨2017, 5, 1, 12, 0, 0⟩ : DateTime6) = ⟨2017, 5, 1, 12, 0, 1⟩ :=
  (branch_names_collide_only_same_second ⟨2017, 5, 1, 12, 0, 0⟩ ⟨2017, 5, 1, 12, 0, 1⟩
    (by decide) (by decide)).1 "externalize"

/-! ## C8 -/

lemma lookup_append_or {α : Type} (d d2 : List (String × α)) (n : String) :
    (d ++ d2).lookup n = (d.lookup n).or (d2.lookup n) := by
  induction d with
  | nil => simp [List.lookup]
  | cons p rest ih =>
    obtain ⟨a, b⟩ := p
    rw [List.cons_append, List.lookup_cons, List.lookup_cons]
    cases hna : n == a
    · simpa using ih
    · simp

lemma any_false_lookup_none {α : Type} :
    ∀ {d : List (String × α)} {k : String},
      d.any (fun p => p.1 == k) = false → d.lookup k = none := by
  intro d
  induction d with
  | nil => intro k h; rfl
  | cons p rest ih =>
    intro k h
    obtain ⟨a, b⟩ := p
    rw [List.any_cons, Bool.or_eq_false_iff] at h
    have h1 : ¬ a = k := by simpa using h.1
    have hka : (k == a) = false := beq_false_of_ne (fun he => h1 he.symm)
    rw [List.lookup_cons, hka]
    exact ih h.2

lemma replace_lookup_ne {α : Type} {k n : String} {v : α} (hnk : n ≠ k) :
    ∀ d : List (String × α),
      (d.map (fun p => if p.1 == k then (k, v) else p)).lookup n = d.lookup n := by
  intro d
  induction d with
  | nil => rfl
  | cons p rest ih =>
    obtain ⟨a, b⟩ := p
    rw [List.map_cons]
    by_cases hak : a = k
    · subst hak
      simp only [beq_self_eq_true, if_true]
      rw [List.lookup_cons, List.lookup_cons, beq_false_of_ne hnk]
      simpa using ih
    · simp only [beq_false_of_ne hak, Bool.false_eq_true, if_false]
      rw [List.lookup_cons, List.lookup_cons]
      cases hna : n == a
      · simpa using ih
      · simp

lemma replace_lookup_eq {α : Type} {k : String} {v : α} :
    ∀ {d : List (String × α)},
      d.any (fun p => p.1 == k) = true →
      (d.map (fun p => if p.1 == k then (k, v) else p)).lookup k = some v := by
  intro d
  induction d with
  | nil => intro h; simp at h
  | cons p rest ih =>
    intro h
    obtain ⟨a, b⟩ := p
    rw [List.map_cons]
    by_cases hak : a = k
    · subst hak
      simp only [beq_self_eq_true, if_true]
      rw [List.lookup_cons]
      simp
    · simp only [beq_false_of_ne hak, Bool.false_eq_true, if_false]
      rw [List.any_cons] at h
      have h2 : rest.any (fun p => p.1 == k) = true := by
        rcases Bool.or_eq_true_iff.mp h with h1 | h2
        · exact absurd (by simpa using h1) hak
        · exact h2
      rw [List.lookup_cons, beq_false_of_ne (fun he => hak he.symm)]
      exact ih h2

/-- Python dict assignment, observed through lookup: the inserted key maps
to the new value, every other key is untouched. -/
lemma dictInsert_lookup {α : Type} (d : List (String × α)) (k : String) (v : α)
    (n : String) :
    (dictInsert d k v).lookup n = if n = k then some v else d.lookup n := by
  unfold dictInsert
  by_cases hpres : d.any (fun p => p.1 == k) = true
  · rw [if_pos hpres]
    by_cases hnk : n = k
    · subst hnk
      rw [if_pos rfl]
      exact replace_lookup_eq hpres
    · rw [if_neg hnk]
      exact replace_lookup_ne hnk d
  · rw [if_neg hpres, lookup_append_or]
    have hfalse : d.any (fun p => p.1 == k) = false := by
      cases hany : d.any (fun p => p.1 == k)
      · rfl
      · exact absurd hany hpres
    by_cases hnk : n = k
    · subst hnk
      rw [if_pos rfl, any_false_lookup_none hfalse]
      simp [List.lookup_cons]
    · rw [if_neg hnk, List.lookup_cons, beq_false_of_ne hnk]
      cases hl : d.lookup n <;> rfl

/-- Python dict assignment keeps the key list unchanged when the key is
present and appends it otherwise. -/
lemma dictInsert_keys {α : Type} (d : List (String × α)) (k : String) (v : α) :
    (dictInsert d k v).map Prod.fst
      = if d.any (fun p => p.1 == k) = true then d.map Prod.fst
        else d.map Prod.fst ++ [k] := by
  unfold dictInsert
  by_cases hpres : d.any (fun p => p.1 == k) = true
  · rw [if_pos hpres, if_pos hpres, List.map_map]
    apply List.map_congr_left
    intro p _
    by_cases hp : p.1 = k
    · simp [hp]
    · simp [beq_false_of_ne hp, hp]
  · rw [if_neg hpres, if_neg hpres]
    simp

lemma dictInsert_nodup_keys {α : Type} {d : List (String × α)} (k : String) (v : α)
    (h : (d.map Prod.fst).Nodup) : ((dictInsert d k v).map Prod.fst).Nodup := by
  rw [dictInsert_keys]
  by_cases hpres : d.any (fun p => p.1 == k) = true
  · rw [if_pos hpres]; exact h
  · rw [if_neg hpres]
    have hk : k ∉ d.map Prod.fst := by
      intro hmem
      obtain ⟨p, hp, hpk⟩ := List.mem_map.mp hmem
      apply hpres
      rw [List.any_eq_true]
      exact ⟨p, hp, by simp [hpk]⟩
    simp [List.nodup_append, h, hk]

lemma get_recipe_contents_snoc (dirs : List RecipeDir) (d : RecipeDir) :
    get_recipe_contents (dirs ++ [d])
      = dictInsert (get_recipe_contents dirs) (recipeNameOf d.path)
          (recipe_signature d.files) := by
  simp [get_recipe_contents, List.foldl_append]

/-- C8 (counterexample): the recipe roots `numpy` and
`numpy-recipe/recipe` resolve to the same canonical name; extraction does
not fail — the later-processed root's signature (`"Mg=="`, the base64 of
byte 50) silently replaces the earlier one's (`"MQ=="`, byte 49). -/
theorem name_collision_overwrites_counterexample :
    recipeNameOf ["numpy"] = recipeNameOf ["numpy-recipe", "recipe"]
  ∧ get_recipe_contents
      [⟨["numpy"], [("meta.yaml", [49])]⟩, ⟨["numpy-recipe", "recipe"], [("meta.yaml", [50])]⟩]
      = [("numpy", "Mg==")] :=
  ⟨by decide, by decide⟩

/-- C8 (amended): the extraction never fails on a name collision; the
resulting mapping has unique keys only because Python dict assignment
silently overwrites — each name maps to the signature of the
last-processed recipe root resolving to it. -/
theorem get_recipe_contents_unique_keys_last_wins (dirs : List RecipeDir) :
    ((get_recipe_contents dirs).map Prod.fst).Nodup
  ∧ ∀ n, (get_recipe_contents dirs).lookup n
      = (dirs.reverse.find? (fun d => recipeNameOf d.path == n)).map
          (fun d => recipe_signature d.files) := by
  induction dirs using List.reverseRecOn with
  | nil => exact ⟨List.nodup_nil, fun n => rfl⟩
  | append_singleton ds d ih =>
    rw [get_recipe_contents_snoc]
    refine ⟨dictInsert_nodup_keys _ _ ih.1, fun n => ?_⟩
    rw [dictInsert_lookup, List.reverse_append, List.reverse_singleton,
      List.singleton_append, List.find?_cons]
    by_cases hn : n = recipeNameOf d.path
    · subst hn
      rw [if_pos rfl, beq_self_eq_true]
      rfl
    · rw [if_neg hn, beq_false_of_ne (fun he => hn he.symm)]
      exact ih.2 n

/-! ## C7 -/

/-- C7: `get_anaconda_repo_contents` never consults a payload's
self-reported truncation flag — the run is identical whether or not any
page reports truncation, and a run whose only page is truncated still
returns a result instead of failing fast (the source's own TODO,
`Handle the "truncated" case`, records the missing check).  The page
count itself is taken from the pagination metadata (`npages`) before the
loop, as the claim's first half says. -/
theorem truncation_flag_ignored :
    (∀ (npages : Nat) (pages : Nat → RepoPage)
        (contents : String → List (String × String)),
      get_anaconda_repo_contents npages pages contents
        = get_anaconda_repo_contents npages
            (fun i => { repos := (pages i).repos, truncated := false,
                        message := (pages i).message }) contents)
  ∧ get_anaconda_repo_contents 1
      (fun _ => { repos := ["numpy-recipe"], truncated := true, message := none })
      (fun _ => [("numpy", "MQ==")])
      = Except.ok { seen := ["numpy"], processed := ["numpy-recipe"],
                    dict := [("numpy", "MQ==")] } := by
  constructor
  · intro npages pages contents
    rw [get_anaconda_repo_contents, get_anaconda_repo_contents]
    have hfun : (fun (st : ReposState) (i : Nat) => processPage contents st (pages i))
        = fun (st : ReposState) (i : Nat) =>
            processPage contents st
              { repos := (pages i).repos, truncated := false,
                message := (pages i).message } := by
      funext st i
      cases hpi : pages i
      rfl
    rw [hfun]
  · rfl

/-! ## C10 -/

lemma contains_false_iff (l : List String) (x : String) :
    l.contains x = false ↔ x ∉ l := by
  constructor
  · intro h hmem
    have : l.contains x = true := by
      simpa [List.contains] using (List.elem_iff).mpr hmem
    rw [this] at h
    exact Bool.true_eq_false.mp h
  · intro hmem
    cases hc : l.contains x
    · rfl
    · exact absurd ((List.elem_iff).mp (by simpa [List.contains] using hc)) hmem

lemma seenAfter_append :
    ∀ (l1 l2 seen : List String),
      seenAfter seen (l1 ++ l2) = seenAfter (seenAfter seen l1) l2 := by
  intro l1
  induction l1 with
  | nil => intro l2 seen; rfl
  | cons r rest ih =>
    intro l2 seen
    rw [List.cons_append]
    by_cases hc : seen.contains (pySplitFirst r "-recipe") = true
    · rw [seenAfter, if_pos hc, seenAfter, if_pos hc]
      exact ih l2 seen
    · rw [seenAfter, if_neg hc, seenAfter, if_neg hc]
      exact ih l2 _

lemma firstOccFrom_append :
    ∀ (l1 l2 seen : List String),
      firstOccFrom seen (l1 ++ l2)
        = firstOccFrom seen l1 ++ firstOccFrom (seenAfter seen l1) l2 := by
  intro l1
  induction l1 with
  | nil => intro l2 seen; rfl
  | cons r rest ih =>
    intro l2 seen
    rw [List.cons_append]
    by_cases hc : seen.contains (pySplitFirst r "-recipe") = true
    · rw [firstOccFrom, if_pos hc, firstOccFrom, if_pos hc, seenAfter, if_pos hc]
      exact ih l2 seen
    · rw [firstOccFrom, if_neg hc, firstOccFrom, if_neg hc, seenAfter, if_neg hc,
        List.cons_append]
      rw [ih l2 _]

lemma foldlM_processRepo_ok (contents : String → List (String × String)) :
    ∀ (l : List String) (st st' : ReposState),
      l.foldlM (processRepo contents) st = Except.ok st' →
      st'.seen = seenAfter st.seen l
      ∧ st'.processed = st.processed ++ firstOccFrom st.seen l := by
  intro l
  induction l with
  | nil =>
    intro st st' h
    simp only [List.foldlM_nil] at h
    cases h
    exact ⟨rfl, by simp [seenAfter, firstOccFrom]⟩
  | cons r rest ih =>
    intro st st' h
    rw [List.foldlM_cons] at h
    rcases hp : processRepo contents st r with e | st2
    · rw [hp] at h
      exact absurd h (by simp [Bind.bind, Except.bind])
    · rw [hp] at h
      have h2 : rest.foldlM (processRepo contents) st2 = Except.ok st' := by
        simpa [Bind.bind, Except.bind] using h
      unfold processRepo at hp
      by_cases hend : endsWithStr r "-recipe" = false
      · rw [if_pos hend] at hp
        exact absurd hp (by simp)
      · rw [if_neg hend] at hp
        by_cases hseen : st.seen.contains (pySplitFirst r "-recipe") = true
        · rw [if_pos hseen] at hp
          injection hp with hst2
          subst hst2
          obtain ⟨hs, hpr⟩ := ih _ st' h2
          rw [seenAfter, if_pos hseen, firstOccFrom, if_pos hseen]
          exact ⟨hs, hpr⟩
        · rw [if_neg hseen] at hp
          injection hp with hst2
          subst hst2
          obtain ⟨hs, hpr⟩ := ih _ st' h2
          rw [seenAfter, if_neg hseen, firstOccFrom, if_neg hseen]
          refine ⟨hs, ?_⟩
          rw [hpr]
          simp

lemma foldlM_pages_ok (contents : String → List (String × String))
    (pages : Nat → RepoPage) :
    ∀ (idxs : List Nat) (st st' : ReposState),
      idxs.foldlM (fun st i => processPage contents st (pages i)) st = Except.ok st' →
      st'.seen = seenAfter st.seen (idxs.flatMap fun i => (pages i).repos)
      ∧ st'.processed
          = st.processed ++ firstOccFrom st.seen (idxs.flatMap fun i => (pages i).repos) := by
  intro idxs
  induction idxs with
  | nil =>
    intro st st' h
    simp only [List.foldlM_nil] at h
    cases h
    exact ⟨rfl, by simp [seenAfter, firstOccFrom]⟩
  | cons i rest ih =>
    intro st st' h
    rw [List.foldlM_cons] at h
    rcases hp : processPage contents st (pages i) with e | st2
    · rw [hp] at h
      exact absurd h (by simp [Bind.bind, Except.bind])
    · rw [hp] at h
      have h2 : rest.foldlM (fun st i => processPage contents st (pages i)) st2
          = Except.ok st' := by
        simpa [Bind.bind, Except.bind] using h
      unfold processPage at hp
      cases hm : (pages i).message with
      | some m => rw [hm] at hp; exact absurd hp (by simp)
      | none =>
        rw [hm] at hp
        obtain ⟨hs2, hpr2⟩ := foldlM_processRepo_ok contents (pages i).repos st st2 hp
        obtain ⟨hs, hpr⟩ := ih st2 st' h2
        rw [List.flatMap_cons, seenAfter_append, firstOccFrom_append]
        constructor
        · rw [hs, hs2]
        · rw [hpr, hpr2, hs2]
          rw [List.append_assoc]

lemma firstOccFrom_names_nodup :
    ∀ (l seen : List String),
      ((firstOccFrom seen l).map (fun r => pySplitFirst r "-recipe")).Nodup
      ∧ ∀ x ∈ (firstOccFrom seen l).map (fun r => pySplitFirst r "-recipe"),
          seen.contains x = false := by
  intro l
  induction l with
  | nil => intro seen; exact ⟨by simp [firstOccFrom], by simp [firstOccFrom]⟩
  | cons r rest ih =>
    intro seen
    by_cases hc : seen.contains (pySplitFirst r "-recipe") = true
    · rw [firstOccFrom, if_pos hc]
      exact ih seen
    · rw [firstOccFrom, if_neg hc]
      have hcf : seen.contains (pySplitFirst r "-recipe") = false := by
        cases hx : seen.contains (pySplitFirst r "-recipe")
        · rfl
        · exact absurd hx hc
      have ihh := ih (pySplitFirst r "-recipe" :: seen)
      constructor
      · rw [List.map_cons, List.nodup_cons]
        refine ⟨?_, ihh.1⟩
        intro hmem
        have hfalse := ihh.2 _ hmem
        rw [contains_false_iff] at hfalse
        exact hfalse (List.mem_cons_self _ _)
      · intro x hx
        rw [List.map_cons, List.mem_cons] at hx
        rcases hx with rfl | hx
        · exact hcf
        · have hfalse := ihh.2 x hx
          rw [contains_false_iff] at hfalse ⊢
          intro hmem
          exact hfalse (List.mem_cons_of_mem _ hmem)

/-- C10: whenever the public-mirror load succeeds, the repositories cloned
and processed are exactly the first occurrence of each recipe name in the
paginated listing — every later duplicate is skipped by the `seen` check —
so the processed recipe names are unique within the origin. -/
theorem public_mirror_first_occurrence_wins (npages : Nat) (pages : Nat → RepoPage)
    (contents : String → List (String × String)) (st : ReposState)
    (h : get_anaconda_repo_contents npages pages contents = Except.ok st) :
    st.processed = firstOccFrom [] (allRepos npages pages)
  ∧ (st.processed.map (fun r => pySplitFirst r "-recipe")).Nodup := by
  rw [get_anaconda_repo_contents] at h
  obtain ⟨hs, hpr⟩ := foldlM_pages_ok contents pages (List.range' 1 npages) ⟨[], [], []⟩ st h
  have hpr' : st.processed
      = firstOccFrom [] ((List.range' 1 npages).flatMap fun i => (pages i).repos) := by
    simpa using hpr
  constructor
  · rw [allRepos]
    exact hpr'
  · rw [hpr']
    exact (firstOccFrom_names_nodup _ []).1

/-- C10 (witness): the same repository listed on two pages is processed
once. -/
theorem public_mirror_first_occurrence_wins_witness :
    (ReposState.mk ["numpy"] ["numpy-recipe"] [("numpy", "MQ==")]).processed
      = firstOccFrom []
          (allRepos 2 (fun _ => { repos := ["numpy-recipe"], truncated := false,
                                  message := none }))
  ∧ ((ReposState.mk ["numpy"] ["numpy-recipe"] [("numpy", "MQ==")]).processed.map
      (fun r => pySplitFirst r "-recipe")).Nodup :=
  public_mirror_first_occurrence_wins 2
    (fun _ => { repos := ["numpy-recipe"], truncated := false, message := none })
    (fun _ => [("numpy", "MQ==")])
    (ReposState.mk ["numpy"] ["numpy-recipe"] [("numpy", "MQ==")]) rfl
